import Mathlib

/-!
# Dependency Impact Graph Engine — verification development

Shallow embedding of the graph engine implemented in
`server/api/pythonApi.py` (commands `find_critical_path` and
`calculate_cascade_impact`).

Modelling conventions:
* Node ids are opaque; we use `Nat`.
* Python float weights are modelled as exact rationals `ℚ` (all the
  arithmetic the engine performs — sums, comparisons, `* riskScore/50`,
  `* (1 + 0.1·n)` — is exact on the inputs the claims mention).
* The `networkx` library calls are modelled by executable Lean functions
  that implement their documented semantics on this graph representation:
  `DiGraph` (insertion-ordered node list plus an insertion-ordered
  association list keyed on the ordered pair, with edge re-insertion
  overwriting the stored weight in place), `all_simple_paths` (DFS in
  adjacency order), `simple_cycles` used only through its first reported
  cycle (a function returning one simple cycle, if any), `descendants`
  (nodes reachable from a source, the source itself excluded),
  `is_directed_acyclic_graph` (no simple cycle exists).
* The module-level flag `PINN_AVAILABLE` and the `usePINN` option are
  passed as explicit `Bool` parameters.
* Python exceptions that the engine catches are modelled with
  `Except`/structured error results.
-/

namespace DepEngine

abbrev NodeId := Nat

abbrev Weight := ℚ

/-- One edge of the request payload: `{source, target, weight, riskScore?}`. -/
structure InEdge where
  source : NodeId
  target : NodeId
  weight : Weight
  riskScore : Option Weight := none
deriving Repr, DecidableEq

/-- Model of `nx.DiGraph` as used by the engine: insertion-ordered node
list and insertion-ordered edge association list `(source, target, weight)`. -/
structure Graph where
  nodes : List NodeId
  adj : List (NodeId × NodeId × Weight)
deriving Repr, DecidableEq

/-- `G.add_node n`: a node is appended only if not already present. -/
def addNode (g : Graph) (n : NodeId) : Graph :=
  if n ∈ g.nodes then g else { g with nodes := g.nodes ++ [n] }

/-- Edge insertion into the adjacency list: an existing `(u,v)` entry has
its weight overwritten in place, otherwise the edge is appended. -/
def insertAdj (g : Graph) (u v : NodeId) (w : Weight) : Graph :=
  if g.adj.any (fun e => e.1 == u && e.2.1 == v) then
    { g with adj := g.adj.map (fun e => if e.1 == u && e.2.1 == v then (u, v, w) else e) }
  else
    { g with adj := g.adj ++ [(u, v, w)] }

/-- `G.add_edge u v weight=w`: missing endpoints are added as nodes, then
the edge is inserted. -/
def addEdge (g : Graph) (u v : NodeId) (w : Weight) : Graph :=
  insertAdj (addNode (addNode g u) v) u v w

/-- Graph construction in both handlers: `G.add_node` for each listed node,
then `G.add_edge(source, target, weight)` for each edge. -/
def buildGraph (nodes : List NodeId) (edges : List InEdge) : Graph :=
  edges.foldl (fun g e => addEdge g e.source e.target e.weight)
    (nodes.foldl addNode { nodes := [], adj := [] })

/-- `G[u][v]['weight']` as a partial lookup. -/
def getWeight (g : Graph) (u v : NodeId) : Option Weight :=
  (g.adj.find? (fun e => e.1 == u && e.2.1 == v)).map (fun e => e.2.2)

/-- `G.has_edge(u, v)`. -/
def hasEdge (g : Graph) (u v : NodeId) : Bool :=
  (getWeight g u v).isSome

/-- Successors of `u` in adjacency (insertion) order. -/
def successors (g : Graph) (u : NodeId) : List NodeId :=
  (g.adj.filter (fun e => e.1 == u)).map (fun e => e.2.1)

/-- `G.remove_edge(u, v)`. -/
def removeEdge (g : Graph) (uv : NodeId × NodeId) : Graph :=
  { g with adj := g.adj.filter (fun e => !(e.1 == uv.1 && e.2.1 == uv.2)) }

/-- Consecutive-edge check: every step of the node sequence is an edge of `g`. -/
def chainOk (g : Graph) : List NodeId → Bool
  | u :: v :: rest => hasEdge g u v && chainOk g (v :: rest)
  | _ => true

/-- Specification-side notion of a simple path from `s` to `t`:
nonempty node sequence starting at `s`, ending at `t`, without repeated
nodes, whose consecutive pairs are all edges. -/
def isSimplePath (g : Graph) (s t : NodeId) (p : List NodeId) : Prop :=
  p.head? = some s ∧ p.getLast? = some t ∧ p.Nodup ∧ chainOk g p = true

/-- Total weight of a path: sum of `G[u][v]['weight']` over consecutive
pairs (`zip(path[:-1], path[1:])`). -/
def pathWeight (g : Graph) : List NodeId → Weight
  | u :: v :: rest => (getWeight g u v).getD 0 + pathWeight g (v :: rest)
  | _ => 0

/-- DFS worker for `nx.all_simple_paths`: `pre` is the path built so far
(not containing `u`), `fuel` bounds the residual depth. -/
def simplePathsAux (g : Graph) (t : NodeId) : Nat → NodeId → List NodeId → List (List NodeId)
  | 0, u, pre => if u = t then [pre ++ [u]] else []
  | fuel' + 1, u, pre =>
    if u = t then [pre ++ [u]]
    else
      ((successors g u).filter (fun v => decide (v ∉ pre ++ [u]))).flatMap
        (fun v => simplePathsAux g t fuel' v (pre ++ [u]))

/-- `list(nx.all_simple_paths(G, s, t))`: every simple path from `s` to `t`
in DFS order.  `g.nodes.length` bounds the length of any simple path. -/
def allSimplePaths (g : Graph) (s t : NodeId) : List (List NodeId) :=
  simplePathsAux g t g.nodes.length s []

/-- Model of the one use the engine makes of `nx.simple_cycles`: the first
reported simple cycle (as its node list), or `none` when the graph is
acyclic.  A cycle through `u` is `u` followed by a simple path from one of
its successors back to `u`, with the closing node dropped
(`nx.simple_cycles` also reports cycles as node lists without repeating
the first node). -/
def findCycle (g : Graph) : Option (List NodeId) :=
  g.nodes.findSome? fun u =>
    (successors g u).findSome? fun v =>
      match allSimplePaths g v u with
      | [] => none
      | p :: _ => some (u :: p.dropLast)

/-- Model of `nx.is_directed_acyclic_graph G`: no simple cycle exists. -/
def isAcyclic (g : Graph) : Bool :=
  (findCycle g).isNone

/-- The edge pairs of a detected cycle, exactly as the code walks them:
`zip(cycle, cycle[1:] + [cycle[0]])`. -/
def cycleEdges : List NodeId → List (NodeId × NodeId)
  | [] => []
  | x :: rest => (x :: rest).zip (rest ++ [x])

/-- One step of the min-edge scan over a cycle's edge pairs:
`if G.has_edge(u, v) and G[u][v]['weight'] < min_weight: ...` where an
empty accumulator plays the role of `min_weight = inf`. -/
def minFoldStep (g : Graph) (acc : Option ((NodeId × NodeId) × Weight))
    (uv : NodeId × NodeId) : Option ((NodeId × NodeId) × Weight) :=
  match getWeight g uv.1 uv.2 with
  | none => acc
  | some w =>
    match acc with
    | none => some (uv, w)
    | some pw => if w < pw.2 then some (uv, w) else acc

/-- The minimum-weight edge of the detected cycle together with its weight
(`min_edge`, `min_weight`); ties keep the first occurrence because the
scan only replaces on strict `<`. -/
def minCycleEdgeW (g : Graph) (c : List NodeId) : Option ((NodeId × NodeId) × Weight) :=
  (cycleEdges c).foldl (minFoldStep g) none

/-- The cycle-repair loop of `find_critical_path`, fuel-indexed:
`while not nx.is_directed_acyclic_graph(G): cycles = ...; if not cycles:
break; <min-edge scan>; if min_edge: G.remove_edge(*min_edge)`.
The branch that finds a cycle but no removable edge re-enters the loop
body unchanged, exactly as the code does. -/
def resolveCyclesFuel : Nat → Graph → Graph
  | 0, g => g
  | fuel + 1, g =>
    if isAcyclic g then g
    else
      match findCycle g with
      | none => g
      | some c =>
        match minCycleEdgeW g c with
        | some ew => resolveCyclesFuel fuel (removeEdge g ew.1)
        | none => resolveCyclesFuel fuel g

/-- The cycle-repair loop run to completion: each productive iteration
removes one edge, so `edges + 1` rounds of fuel always reach the exit. -/
def resolveCycles (g : Graph) : Graph :=
  resolveCyclesFuel (g.adj.length + 1) g

/-- `weight' = weight * (riskScore / 50)` when a risk score is present,
else unchanged — the `physics_edges` pre-pass of `find_critical_path`
(the rebuilt edge dictionaries carry no risk score). -/
def augmentEdge (e : InEdge) : InEdge :=
  { source := e.source, target := e.target,
    weight := match e.riskScore with
      | some r => e.weight * (r / 50)
      | none => e.weight,
    riskScore := none }

/-- Python `max(all_paths, key=lambda x: x[1])`: the first element
attaining the maximal weight (later elements replace only on strict `>`). -/
def pickMax : List (List NodeId × Weight) → Option (List NodeId × Weight)
  | [] => none
  | x :: xs => some (xs.foldl (fun best q => if q.2 > best.2 then q else best) x)

/-- The `all_paths` enumeration of `find_critical_path`: for every ordered
pair of distinct nodes, every simple path together with its total weight. -/
def allGraphPaths (g : Graph) : List (List NodeId × Weight) :=
  g.nodes.flatMap fun s =>
    g.nodes.flatMap fun t =>
      if s = t then []
      else (allSimplePaths g s t).map (fun p => (p, pathWeight g p))

/-- Result shape of the `find_critical_path` command. -/
structure CriticalPathResult where
  path : List NodeId
  totalWeight : Weight
  usedPINN : Bool := false
  error : Option String := none
deriving Repr, DecidableEq

/-- The `find_critical_path` handler.  `pinnAvailable` models the
module-level `PINN_AVAILABLE` flag and `usePINN` the request option.
When both hold, edge weights are first replaced by the physics-adjusted
weights; the graph is then built, repaired to a DAG, and the globally
maximum-weight simple path is selected (empty path and weight `0` when no
pair of distinct nodes is joined by a path). -/
def find_critical_path (pinnAvailable : Bool) (nodes : List NodeId)
    (edges : List InEdge) (usePINN : Bool) : CriticalPathResult :=
  match pickMax (allGraphPaths (resolveCycles (buildGraph nodes
      (if usePINN && pinnAvailable then edges.map augmentEdge else edges)))) with
  | some pw => { path := pw.1, totalWeight := pw.2, usedPINN := usePINN && pinnAvailable }
  | none => { path := [], totalWeight := 0 }

/-- Model of `nx.descendants(G, s)`: every node reachable from `s`, the
source itself excluded; raises (here: `Except.error`) when `s` is not a
node of the graph. -/
def descendants (g : Graph) (s : NodeId) : Except String (List NodeId) :=
  if s ∈ g.nodes then
    .ok (g.nodes.filter (fun n => decide (n ≠ s) && !(allSimplePaths g s n).isEmpty))
  else
    .error "node not in graph"

/-- Python `max` over a nonempty list. -/
def maxList : List Weight → Option Weight
  | [] => none
  | x :: xs => some (xs.foldl max x)

/-- One iteration of the delay accumulation of `calculate_cascade_impact`:
`paths = list(nx.all_simple_paths(G, source, target)); if paths:
total_delay = max(total_delay, max(path_weights))`. -/
def cascadeStep (g : Graph) (s : NodeId) (total : Weight) (t : NodeId) : Weight :=
  match maxList ((allSimplePaths g s t).map (pathWeight g)) with
  | none => total
  | some m => max total m

/-- The delay accumulation of `calculate_cascade_impact`: `total_delay`
starts at `0` and, for each affected item, is raised to the maximum
weight of any simple path from the source to that item. -/
def cascadeDelay (g : Graph) (s : NodeId) (affected : List NodeId) : Weight :=
  affected.foldl (cascadeStep g s) 0

/-- The `delay_factors` record of the PINN enhancement. -/
structure DelayFactors where
  team_size : Weight
  buffer : Weight
  cascade_depth : Weight
deriving Repr, DecidableEq

/-- Result shape of the `calculate_cascade_impact` command. -/
structure CascadeResult where
  affected_items : List NodeId
  total_delay : Weight
  physics_enhanced_delay : Option Weight := none
  delay_factors : Option DelayFactors := none
  usedPINN : Bool := false
  error : Option String := none
deriving Repr, DecidableEq

/-- The `calculate_cascade_impact` handler.  The graph is built directly
from the request edges (no weight augmentation, no cycle repair); a
missing source is caught and reported as a structured error result.  When
PINN is requested and available, the enhancement multiplies the raw delay
by `team_size_factor (=1) * buffer_factor (=1) * (1 + 0.1·|affected|)`
and exposes it alongside the raw delay. -/
def calculate_cascade_impact (pinnAvailable : Bool) (workItemId : NodeId)
    (nodes : List NodeId) (edges : List InEdge) (usePINN : Bool) : CascadeResult :=
  let g := buildGraph nodes edges
  match descendants g workItemId with
  | .error e => { affected_items := [], total_delay := 0, error := some e }
  | .ok affected =>
    let total := cascadeDelay g workItemId affected
    if usePINN && pinnAvailable then
      let teamSizeFactor : Weight := 1
      let bufferFactor : Weight := 1
      let depthFactor : Weight := 1 + (1 / 10) * (affected.length : Weight)
      { affected_items := affected, total_delay := total,
        physics_enhanced_delay := some (total * teamSizeFactor * bufferFactor * depthFactor),
        delay_factors := some ⟨teamSizeFactor, bufferFactor, depthFactor⟩,
        usedPINN := true }
    else
      { affected_items := affected, total_delay := total }

/-- The cascade query evaluated over an explicitly given graph (same
reachability and delay computation as `calculate_cascade_impact`, with
the error case collapsed to `([], 0)`).  Used to compare what the handler
returns with what it would return over a differently prepared graph. -/
def cascadeCore (g : Graph) (s : NodeId) : List NodeId × Weight :=
  match descendants g s with
  | .error _ => ([], 0)
  | .ok affected => (affected, cascadeDelay g s affected)

/-- The critical-path query evaluated over an explicitly given graph. -/
def criticalCore (g : Graph) : List NodeId × Weight :=
  match pickMax (allGraphPaths g) with
  | some pw => pw
  | none => ([], 0)

/-!
### Float-weight replica of the cycle-repair loop

`Weight := ℚ` covers every finite float exactly, but `json.loads` also
accepts the token `Infinity`, so the running program can receive edges
whose weight is the IEEE infinity.  `FloatW` extends the weight domain by
that value for the one component whose behaviour depends on it: the
min-edge scan of the repair loop (`min_weight = float('inf')`, then
`G[u][v]['weight'] < min_weight`).  NaN (also accepted by the decoder)
behaves exactly like `inf` in every comparison this scan performs — it is
never selected as the minimum and never updates it — so it needs no
constructor of its own.  The definitions below replicate, line for line,
the same source code as their rational-weight counterparts above; cycle
detection and graph construction never look at weights.
-/

/-- A float weight as the engine can actually receive it: a finite value
(exact as a rational) or positive infinity. -/
inductive FloatW where
  | fin (q : ℚ)
  | inf
deriving Repr, DecidableEq

/-- Python `<` on the float weights the min-edge scan compares. -/
def FloatW.lt : FloatW → FloatW → Bool
  | .fin a, .fin b => decide (a < b)
  | .fin _, .inf => true
  | .inf, _ => false

/-- The graph of the float-weight replica. -/
structure FGraph where
  nodes : List NodeId
  adj : List (NodeId × NodeId × FloatW)
deriving Repr, DecidableEq

/-- `G.add_node n`, as in `addNode`. -/
def fAddNode (g : FGraph) (n : NodeId) : FGraph :=
  if n ∈ g.nodes then g else { g with nodes := g.nodes ++ [n] }

/-- `G.add_edge u v weight=w`, as in `insertAdj`/`addEdge`. -/
def fAddEdge (g : FGraph) (u v : NodeId) (w : FloatW) : FGraph :=
  let g' := fAddNode (fAddNode g u) v
  if g'.adj.any (fun e => e.1 == u && e.2.1 == v) then
    { g' with adj := g'.adj.map (fun e => if e.1 == u && e.2.1 == v then (u, v, w) else e) }
  else
    { g' with adj := g'.adj ++ [(u, v, w)] }

/-- Graph construction over float weights, as in `buildGraph`. -/
def fBuildGraph (nodes : List NodeId) (edges : List (NodeId × NodeId × FloatW)) : FGraph :=
  edges.foldl (fun g e => fAddEdge g e.1 e.2.1 e.2.2)
    (nodes.foldl fAddNode { nodes := [], adj := [] })

/-- `G[u][v]['weight']`, as in `getWeight`. -/
def fGetWeight (g : FGraph) (u v : NodeId) : Option FloatW :=
  (g.adj.find? (fun e => e.1 == u && e.2.1 == v)).map (fun e => e.2.2)

/-- Successors in adjacency order, as in `successors`. -/
def fSuccessors (g : FGraph) (u : NodeId) : List NodeId :=
  (g.adj.filter (fun e => e.1 == u)).map (fun e => e.2.1)

/-- DFS worker of `nx.all_simple_paths`, as in `simplePathsAux`
(weight-independent). -/
def fSimplePathsAux (g : FGraph) (t : NodeId) : Nat → NodeId → List NodeId → List (List NodeId)
  | 0, u, pre => if u = t then [pre ++ [u]] else []
  | fuel' + 1, u, pre =>
    if u = t then [pre ++ [u]]
    else
      ((fSuccessors g u).filter (fun v => decide (v ∉ pre ++ [u]))).flatMap
        (fun v => fSimplePathsAux g t fuel' v (pre ++ [u]))

/-- `list(nx.all_simple_paths(G, s, t))`, as in `allSimplePaths`. -/
def fAllSimplePaths (g : FGraph) (s t : NodeId) : List (List NodeId) :=
  fSimplePathsAux g t g.nodes.length s []

/-- First reported simple cycle, as in `findCycle` (weight-independent). -/
def fFindCycle (g : FGraph) : Option (List NodeId) :=
  g.nodes.findSome? fun u =>
    (fSuccessors g u).findSome? fun v =>
      match fAllSimplePaths g v u with
      | [] => none
      | p :: _ => some (u :: p.dropLast)

/-- `nx.is_directed_acyclic_graph`, as in `isAcyclic`. -/
def fIsAcyclic (g : FGraph) : Bool :=
  (fFindCycle g).isNone

/-- The min-edge scan with its genuine initial value `min_weight = inf`:
`if G.has_edge(u, v) and G[u][v]['weight'] < min_weight: ...`. -/
def fMinFoldStep (g : FGraph) (acc : Option (NodeId × NodeId) × FloatW)
    (uv : NodeId × NodeId) : Option (NodeId × NodeId) × FloatW :=
  match fGetWeight g uv.1 uv.2 with
  | none => acc
  | some w => if FloatW.lt w acc.2 then (some uv, w) else acc

/-- `min_edge` after scanning the detected cycle's walked edge pairs. -/
def fMinCycleEdge (g : FGraph) (c : List NodeId) : Option (NodeId × NodeId) :=
  ((cycleEdges c).foldl (fMinFoldStep g) (none, .inf)).1

/-- `G.remove_edge(u, v)`, as in `removeEdge`. -/
def fRemoveEdge (g : FGraph) (uv : NodeId × NodeId) : FGraph :=
  { g with adj := g.adj.filter (fun e => !(e.1 == uv.1 && e.2.1 == uv.2)) }

/-- The repair loop over float weights, iteration-indexed exactly as
`resolveCyclesFuel`: when a cycle is reported but `min_edge` is never set
(`if min_edge:` fails), the body removes nothing and the `while` re-tests
the unchanged graph. -/
def fResolveCyclesFuel : Nat → FGraph → FGraph
  | 0, g => g
  | fuel + 1, g =>
    if fIsAcyclic g then g
    else
      match fFindCycle g with
      | none => g
      | some c =>
        match fMinCycleEdge g c with
        | some e => fResolveCyclesFuel fuel (fRemoveEdge g e)
        | none => fResolveCyclesFuel fuel g

/-- Well-formedness maintained by graph construction: every edge endpoint
is a registered node, and the node list has no duplicates. -/
def Graph.WF (g : Graph) : Prop :=
  (∀ e ∈ g.adj, e.1 ∈ g.nodes ∧ e.2.1 ∈ g.nodes) ∧ g.nodes.Nodup

/-! ## Basic bridges between the executable functions and membership -/

theorem mem_adj_of_getWeight {g : Graph} {u v : NodeId} {w : Weight}
    (h : getWeight g u v = some w) : (u, v, w) ∈ g.adj := by
  unfold getWeight at h
  cases hf : g.adj.find? (fun e => e.1 == u && e.2.1 == v) with
  | none => rw [hf] at h; simp at h
  | some e =>
    have hmem := List.mem_of_find?_eq_some hf
    have hp := List.find?_some hf
    obtain ⟨e1, e2, e3⟩ := e
    rw [hf] at h
    simp only [Bool.and_eq_true, beq_iff_eq] at hp
    obtain ⟨h1, h2⟩ := hp
    simp only [Option.map_some', Option.some.injEq] at h
    subst h1; subst h2; subst h
    exact hmem

theorem getWeight_isSome_of_mem {g : Graph} {u v : NodeId} {w : Weight}
    (h : (u, v, w) ∈ g.adj) : (getWeight g u v).isSome = true := by
  unfold getWeight
  cases hf : g.adj.find? (fun e => e.1 == u && e.2.1 == v) with
  | none =>
    exfalso
    have := List.find?_eq_none.mp hf (u, v, w) h
    simp at this
  | some e => simp

theorem hasEdge_iff_exists {g : Graph} {u v : NodeId} :
    hasEdge g u v = true ↔ ∃ w, (u, v, w) ∈ g.adj := by
  constructor
  · intro h
    unfold hasEdge at h
    cases hw : getWeight g u v with
    | none => rw [hw] at h; simp at h
    | some w => exact ⟨w, mem_adj_of_getWeight hw⟩
  · rintro ⟨w, hw⟩
    exact getWeight_isSome_of_mem hw

theorem mem_successors_iff {g : Graph} {u v : NodeId} :
    v ∈ successors g u ↔ ∃ w, (u, v, w) ∈ g.adj := by
  unfold successors
  constructor
  · intro h
    obtain ⟨e, he, hev⟩ := List.mem_map.mp h
    have := List.mem_filter.mp he
    obtain ⟨hmem, hp⟩ := this
    simp only [beq_iff_eq] at hp
    obtain ⟨e1, e2, e3⟩ := e
    simp only at hp hev
    subst hp; subst hev
    exact ⟨e3, hmem⟩
  · rintro ⟨w, hw⟩
    apply List.mem_map.mpr
    refine ⟨(u, v, w), ?_, rfl⟩
    exact List.mem_filter.mpr ⟨hw, by simp⟩

theorem hasEdge_iff_mem_successors {g : Graph} {u v : NodeId} :
    hasEdge g u v = true ↔ v ∈ successors g u := by
  rw [hasEdge_iff_exists, mem_successors_iff]

theorem getWeight_some_of_hasEdge {g : Graph} {u v : NodeId}
    (h : hasEdge g u v = true) : ∃ w, getWeight g u v = some w := by
  unfold hasEdge at h
  cases hw : getWeight g u v with
  | none => rw [hw] at h; simp at h
  | some w => exact ⟨w, rfl⟩

/-! ## Well-formedness of constructed graphs -/

theorem addNode_adj (g : Graph) (n : NodeId) : (addNode g n).adj = g.adj := by
  unfold addNode; split <;> rfl

theorem mem_addNode_self (g : Graph) (n : NodeId) : n ∈ (addNode g n).nodes := by
  unfold addNode
  split
  · assumption
  · simp

theorem mem_addNode_of_mem {g : Graph} {x : NodeId} (n : NodeId)
    (h : x ∈ g.nodes) : x ∈ (addNode g n).nodes := by
  unfold addNode
  split
  · exact h
  · simp [h]

theorem addNode_nodup {g : Graph} (n : NodeId) (h : g.nodes.Nodup) :
    (addNode g n).nodes.Nodup := by
  unfold addNode
  split
  · exact h
  · rename_i hn
    simp only [List.nodup_append, List.nodup_cons, List.nodup_nil]
    exact ⟨h, by simp, by simp [List.Disjoint]; intro a ha hne; exact hn (hne ▸ ha)⟩

theorem insertAdj_wf {g : Graph} {u v : NodeId} {w : Weight} (h : g.WF)
    (hu : u ∈ g.nodes) (hv : v ∈ g.nodes) : (insertAdj g u v w).WF := by
  obtain ⟨hadj, hnd⟩ := h
  unfold insertAdj
  split
  · refine ⟨?_, hnd⟩
    intro e he
    simp only [List.mem_map] at he
    obtain ⟨e', he', heq⟩ := he
    by_cases hc : (e'.1 == u && e'.2.1 == v) = true
    · rw [if_pos hc] at heq
      subst heq
      exact ⟨hu, hv⟩
    · rw [if_neg hc] at heq
      subst heq
      exact hadj _ he'
  · refine ⟨?_, hnd⟩
    intro e he
    rcases List.mem_append.mp he with h1 | h2
    · exact hadj _ h1
    · simp only [List.mem_singleton] at h2
      subst h2
      exact ⟨hu, hv⟩

theorem addEdge_wf {g : Graph} {u v : NodeId} {w : Weight} (h : g.WF) :
    (addEdge g u v w).WF := by
  obtain ⟨hadj, hnd⟩ := h
  have hu : u ∈ (addNode (addNode g u) v).nodes :=
    mem_addNode_of_mem v (mem_addNode_self g u)
  have hv : v ∈ (addNode (addNode g u) v).nodes := mem_addNode_self _ v
  have hadj' : (addNode (addNode g u) v).adj = g.adj := by
    rw [addNode_adj, addNode_adj]
  apply insertAdj_wf _ hu hv
  constructor
  · intro e he
    rw [hadj'] at he
    exact ⟨mem_addNode_of_mem v (mem_addNode_of_mem u (hadj _ he).1),
      mem_addNode_of_mem v (mem_addNode_of_mem u (hadj _ he).2)⟩
  · exact addNode_nodup v (addNode_nodup u hnd)

theorem addNodes_wf (ns : List NodeId) : ∀ g : Graph, g.WF → (ns.foldl addNode g).WF := by
  induction ns with
  | nil => intro g h; exact h
  | cons n ns ih =>
    intro g h
    obtain ⟨hadj, hnd⟩ := h
    apply ih
    constructor
    · intro e he
      rw [addNode_adj] at he
      exact ⟨mem_addNode_of_mem n (hadj _ he).1, mem_addNode_of_mem n (hadj _ he).2⟩
    · exact addNode_nodup n hnd

theorem addEdges_wf (es : List InEdge) :
    ∀ g : Graph, g.WF →
      (es.foldl (fun g e => addEdge g e.source e.target e.weight) g).WF := by
  induction es with
  | nil => intro g h; exact h
  | cons e es ih => intro g h; exact ih _ (addEdge_wf h)

theorem buildGraph_wf (nodes : List NodeId) (edges : List InEdge) :
    (buildGraph nodes edges).WF := by
  unfold buildGraph
  apply addEdges_wf
  apply addNodes_wf
  exact ⟨by intro e he; simp at he, List.nodup_nil⟩

theorem removeEdge_nodes (g : Graph) (uv : NodeId × NodeId) :
    (removeEdge g uv).nodes = g.nodes := rfl

theorem removeEdge_wf {g : Graph} (uv : NodeId × NodeId) (h : g.WF) :
    (removeEdge g uv).WF := by
  obtain ⟨hadj, hnd⟩ := h
  refine ⟨?_, hnd⟩
  intro e he
  exact hadj _ (List.mem_of_mem_filter he)

theorem resolveCyclesFuel_nodes :
    ∀ (fuel : Nat) (g : Graph), (resolveCyclesFuel fuel g).nodes = g.nodes := by
  intro fuel
  induction fuel with
  | zero => intro g; rfl
  | succ fuel ih =>
    intro g
    unfold resolveCyclesFuel
    split
    · rfl
    · split
      · rfl
      · split
        · rw [ih]; rfl
        · rw [ih]

theorem resolveCyclesFuel_wf :
    ∀ (fuel : Nat) (g : Graph), g.WF → (resolveCyclesFuel fuel g).WF := by
  intro fuel
  induction fuel with
  | zero => intro g h; exact h
  | succ fuel ih =>
    intro g h
    unfold resolveCyclesFuel
    split
    · exact h
    · split
      · exact h
      · split
        · exact ih _ (removeEdge_wf _ h)
        · exact ih _ h

theorem resolveCycles_nodes (g : Graph) : (resolveCycles g).nodes = g.nodes :=
  resolveCyclesFuel_nodes _ g

theorem resolveCycles_wf {g : Graph} (h : g.WF) : (resolveCycles g).WF :=
  resolveCyclesFuel_wf _ g h

/-! ## List helpers -/

theorem mem_of_getLast?_eq_some :
    ∀ {l : List NodeId} {a : NodeId}, l.getLast? = some a → a ∈ l := by
  intro l
  induction l with
  | nil => intro a h; simp at h
  | cons x xs ih =>
    intro a h
    cases xs with
    | nil =>
      simp only [List.getLast?_singleton, Option.some.injEq] at h
      simp [h]
    | cons y ys =>
      rw [List.getLast?_cons_cons] at h
      exact List.mem_cons_of_mem _ (ih h)

theorem eq_dropLast_append_of_getLast? :
    ∀ {l : List NodeId} {a : NodeId}, l.getLast? = some a → l = l.dropLast ++ [a] := by
  intro l
  induction l with
  | nil => intro a h; simp at h
  | cons x xs ih =>
    intro a h
    cases xs with
    | nil =>
      simp only [List.getLast?_singleton, Option.some.injEq] at h
      simp [h]
    | cons y ys =>
      rw [List.getLast?_cons_cons] at h
      have := ih h
      calc x :: y :: ys = x :: ((y :: ys).dropLast ++ [a]) := by rw [← this]
        _ = (x :: y :: ys).dropLast ++ [a] := by simp

theorem nodup_length_le {q l : List NodeId} (hq : q.Nodup) (hsub : ∀ x ∈ q, x ∈ l) :
    q.length ≤ l.length :=
  (hq.subperm hsub).length_le

/-! ## Chains, nodes of paths -/

theorem chainOk_cons_cons {g : Graph} {u v : NodeId} {rest : List NodeId} :
    chainOk g (u :: v :: rest) = (hasEdge g u v && chainOk g (v :: rest)) := rfl

theorem chainOk_nodes {g : Graph} (hwf : g.WF) :
    ∀ q : List NodeId, chainOk g q = true → 2 ≤ q.length → ∀ x ∈ q, x ∈ g.nodes := by
  intro q
  induction q with
  | nil => intro _ _ x hx; simp at hx
  | cons u rest ih =>
    intro hchain h2 x hx
    cases rest with
    | nil => simp at h2
    | cons v rest' =>
      rw [chainOk_cons_cons, Bool.and_eq_true] at hchain
      obtain ⟨he, hc⟩ := hchain
      obtain ⟨w, hw⟩ := hasEdge_iff_exists.mp he
      have hu : u ∈ g.nodes := (hwf.1 _ hw).1
      have hv : v ∈ g.nodes := (hwf.1 _ hw).2
      rcases List.mem_cons.mp hx with rfl | hx'
      · exact hu
      · cases rest' with
        | nil =>
          simp only [List.mem_singleton] at hx'
          subst hx'
          exact hv
        | cons y ys => exact ih hc (by simp) x hx'

/-! ## Soundness and completeness of the simple-path enumeration -/

theorem simplePathsAux_sound (g : Graph) (t : NodeId) :
    ∀ (fuel : Nat) (u : NodeId) (pre p : List NodeId),
      u ∉ pre → p ∈ simplePathsAux g t fuel u pre →
      ∃ q, p = pre ++ q ∧ q.head? = some u ∧ q.getLast? = some t ∧
        chainOk g q = true ∧ q.Nodup ∧ ∀ x ∈ q, x ∉ pre := by
  intro fuel
  induction fuel with
  | zero =>
    intro u pre p hu hp
    rw [simplePathsAux] at hp
    by_cases ht : u = t
    · rw [if_pos ht] at hp
      simp only [List.mem_singleton] at hp
      subst hp
      exact ⟨[u], rfl, rfl, by simp [ht], rfl, List.nodup_singleton u,
        by intro x hx; simp only [List.mem_singleton] at hx; subst hx; exact hu⟩
    · rw [if_neg ht] at hp
      simp at hp
  | succ fuel ih =>
    intro u pre p hu hp
    rw [simplePathsAux] at hp
    by_cases ht : u = t
    · rw [if_pos ht] at hp
      simp only [List.mem_singleton] at hp
      subst hp
      exact ⟨[u], rfl, rfl, by simp [ht], rfl, List.nodup_singleton u,
        by intro x hx; simp only [List.mem_singleton] at hx; subst hx; exact hu⟩
    · rw [if_neg ht] at hp
      simp only [List.mem_flatMap, List.mem_filter, decide_eq_true_eq] at hp
      obtain ⟨v, ⟨hvsucc, hvnot⟩, hpv⟩ := hp
      obtain ⟨q', hpq, hqhead, hqlast, hqchain, hqnodup, hqdisj⟩ :=
        ih v (pre ++ [u]) p hvnot hpv
      cases q' with
      | nil => simp at hqhead
      | cons v0 q'' =>
        simp only [List.head?_cons, Option.some.injEq] at hqhead
        subst hqhead
        refine ⟨u :: v0 :: q'', ?_, rfl, ?_, ?_, ?_, ?_⟩
        · rw [hpq, List.append_assoc]
          rfl
        · rw [List.getLast?_cons_cons]
          exact hqlast
        · rw [chainOk_cons_cons, Bool.and_eq_true]
          exact ⟨hasEdge_iff_mem_successors.mpr hvsucc, hqchain⟩
        · apply List.nodup_cons.mpr
          refine ⟨?_, hqnodup⟩
          intro hmem
          exact (hqdisj u hmem) (by simp)
        · intro x hx
          rcases List.mem_cons.mp hx with rfl | hx'
          · exact hu
          · intro hxpre
            exact (hqdisj x hx') (List.mem_append.mpr (Or.inl hxpre))

theorem simplePathsAux_complete (g : Graph) (t : NodeId) :
    ∀ (q : List NodeId) (fuel : Nat) (u : NodeId) (pre : List NodeId),
      q.head? = some u → q.getLast? = some t → chainOk g q = true →
      q.Nodup → (∀ x ∈ q, x ∉ pre) → q.length ≤ fuel + 1 →
      pre ++ q ∈ simplePathsAux g t fuel u pre := by
  intro q
  induction q with
  | nil => intro fuel u pre h; simp at h
  | cons u0 q' ih =>
    intro fuel u pre hhead hlast hchain hnodup hdisj hlen
    simp only [List.head?_cons, Option.some.injEq] at hhead
    subst hhead
    cases q' with
    | nil =>
      simp only [List.getLast?_singleton, Option.some.injEq] at hlast
      cases fuel with
      | zero => rw [simplePathsAux, if_pos hlast]; simp
      | succ fuel' => rw [simplePathsAux, if_pos hlast]; simp
    | cons v q'' =>
      have hlast' : (v :: q'').getLast? = some t := by
        rw [List.getLast?_cons_cons] at hlast
        exact hlast
      have htmem : t ∈ v :: q'' := mem_of_getLast?_eq_some hlast'
      have hune : u0 ≠ t := by
        intro h
        subst h
        exact (List.nodup_cons.mp hnodup).1 htmem
      rw [chainOk_cons_cons, Bool.and_eq_true] at hchain
      obtain ⟨hedge, hchain'⟩ := hchain
      cases fuel with
      | zero => simp only [List.length_cons] at hlen; omega
      | succ fuel' =>
        rw [simplePathsAux, if_neg hune]
        apply List.mem_flatMap.mpr
        refine ⟨v, ?_, ?_⟩
        · apply List.mem_filter.mpr
          refine ⟨hasEdge_iff_mem_successors.mp hedge, ?_⟩
          simp only [decide_eq_true_eq]
          intro hvm
          rcases List.mem_append.mp hvm with h1 | h2
          · exact hdisj v (by simp) h1
          · simp only [List.mem_singleton] at h2
            subst h2
            exact (List.nodup_cons.mp hnodup).1 (by simp)
        · have hstep : (pre ++ [u0]) ++ (v :: q'') ∈ simplePathsAux g t fuel' v (pre ++ [u0]) := by
            apply ih fuel' v (pre ++ [u0]) rfl hlast' hchain' (List.nodup_cons.mp hnodup).2 ?_ ?_
            · intro x hx hxm
              rcases List.mem_append.mp hxm with h1 | h2
              · exact hdisj x (List.mem_cons_of_mem _ hx) h1
              · simp only [List.mem_singleton] at h2
                subst h2
                exact (List.nodup_cons.mp hnodup).1 hx
            · simp only [List.length_cons] at hlen ⊢
              omega
          rw [List.append_assoc] at hstep
          exact hstep

theorem mem_allSimplePaths_iff {g : Graph} (hwf : g.WF) (s t : NodeId) (p : List NodeId) :
    p ∈ allSimplePaths g s t ↔ isSimplePath g s t p := by
  constructor
  · intro hp
    obtain ⟨q, hpq, h1, h2, h3, h4, _⟩ :=
      simplePathsAux_sound g t _ s [] p (by simp) hp
    simp only [List.nil_append] at hpq
    subst hpq
    exact ⟨h1, h2, h4, h3⟩
  · rintro ⟨h1, h2, h3, h4⟩
    have hlen : p.length ≤ g.nodes.length + 1 := by
      cases p with
      | nil => simp at h1
      | cons x xs =>
        cases xs with
        | nil => simp
        | cons y ys =>
          have hsub := chainOk_nodes hwf (x :: y :: ys) h4 (by simp)
          have := nodup_length_le h3 hsub
          omega
    have := simplePathsAux_complete g t p g.nodes.length s [] h1 h2 h4 h3
      (by simp) hlen
    simpa using this

/-! ## Soundness of cycle detection -/

theorem zip_append_left :
    ∀ (ys xs zs : List NodeId), ys.length ≤ xs.length → (xs ++ zs).zip ys = xs.zip ys := by
  intro ys
  induction ys with
  | nil => intro xs zs _; simp
  | cons y ys ih =>
    intro xs zs hlen
    cases xs with
    | nil => simp at hlen
    | cons x xs' =>
      simp only [List.cons_append, List.zip_cons_cons]
      rw [ih xs' zs (by simpa using hlen)]

theorem chainOk_pairs {g : Graph} :
    ∀ q : List NodeId, chainOk g q = true →
      ∀ uv ∈ q.zip q.tail, hasEdge g uv.1 uv.2 = true := by
  intro q
  induction q with
  | nil => intro _ uv huv; simp at huv
  | cons x xs ih =>
    intro hchain uv huv
    cases xs with
    | nil => simp at huv
    | cons y ys =>
      rw [chainOk_cons_cons, Bool.and_eq_true] at hchain
      simp only [List.tail_cons, List.zip_cons_cons, List.mem_cons] at huv
      rcases huv with rfl | huv'
      · exact hchain.1
      · exact ih hchain.2 uv (by simpa using huv')

theorem findCycle_sound {g : Graph} {c : List NodeId} (h : findCycle g = some c) :
    c ≠ [] ∧ ∀ uv ∈ cycleEdges c, hasEdge g uv.1 uv.2 = true := by
  unfold findCycle at h
  obtain ⟨u, hu, h1⟩ := List.exists_of_findSome?_eq_some h
  obtain ⟨v, hv, h2⟩ := List.exists_of_findSome?_eq_some h1
  cases hps : allSimplePaths g v u with
  | nil => rw [hps] at h2; simp at h2
  | cons p rest =>
    rw [hps] at h2
    simp only [Option.some.injEq] at h2
    subst h2
    have hp : p ∈ allSimplePaths g v u := by rw [hps]; simp
    obtain ⟨q, hpq, hhead, hlast, hchain, hnodup, _⟩ :=
      simplePathsAux_sound g u _ v [] p (by simp) hp
    simp only [List.nil_append] at hpq
    subst hpq
    have hdecomp : p = p.dropLast ++ [u] := eq_dropLast_append_of_getLast? hlast
    refine ⟨by simp, ?_⟩
    have hce : cycleEdges (u :: p.dropLast) = (u :: p).zip p := by
      show (u :: p.dropLast).zip (p.dropLast ++ [u]) = (u :: p).zip p
      conv_rhs => rw [hdecomp]
      rw [show u :: (p.dropLast ++ [u]) = (u :: p.dropLast) ++ [u] by simp]
      rw [zip_append_left (p.dropLast ++ [u]) (u :: p.dropLast) [u] (by simp)]
    rw [hce]
    have hchain' : chainOk g (u :: p) = true := by
      cases p with
      | nil => simp at hhead
      | cons v0 ptail =>
        simp only [List.head?_cons, Option.some.injEq] at hhead
        subst hhead
        rw [chainOk_cons_cons, Bool.and_eq_true]
        exact ⟨hasEdge_iff_mem_successors.mpr hv, hchain⟩
    have := chainOk_pairs (u :: p) hchain'
    simpa using this

/-! ## The minimum-edge scan -/

theorem minFoldStep_isSome {g : Graph} (acc : Option ((NodeId × NodeId) × Weight))
    (uv : NodeId × NodeId) (h : acc.isSome = true) :
    (minFoldStep g acc uv).isSome = true := by
  unfold minFoldStep
  cases hw : getWeight g uv.1 uv.2 with
  | none => exact h
  | some w =>
    cases acc with
    | none => rfl
    | some pw => by_cases hlt : w < pw.2 <;> simp [hlt]

theorem minFold_isSome_acc {g : Graph} :
    ∀ (l : List (NodeId × NodeId)) (acc : Option ((NodeId × NodeId) × Weight)),
      acc.isSome = true → (l.foldl (minFoldStep g) acc).isSome = true := by
  intro l
  induction l with
  | nil => intro acc h; exact h
  | cons uv l ih =>
    intro acc h
    simp only [List.foldl_cons]
    exact ih _ (minFoldStep_isSome acc uv h)

theorem minFold_isSome_of_mem {g : Graph} :
    ∀ (l : List (NodeId × NodeId)) (acc : Option ((NodeId × NodeId) × Weight))
      (uv : NodeId × NodeId), uv ∈ l → (getWeight g uv.1 uv.2).isSome = true →
      (l.foldl (minFoldStep g) acc).isSome = true := by
  intro l
  induction l with
  | nil => intro acc uv h; simp at h
  | cons x l ih =>
    intro acc uv hm hw
    simp only [List.foldl_cons]
    rcases List.mem_cons.mp hm with rfl | hm'
    · apply minFold_isSome_acc
      unfold minFoldStep
      cases hw' : getWeight g uv.1 uv.2 with
      | none => rw [hw'] at hw; simp at hw
      | some w =>
        cases acc with
        | none => rfl
        | some pw => by_cases hlt : w < pw.2 <;> simp [hlt]
    · exact ih _ uv hm' hw

theorem minFold_spec {g : Graph} :
    ∀ (l : List (NodeId × NodeId)) (acc : Option ((NodeId × NodeId) × Weight))
      (e : NodeId × NodeId) (w : Weight),
      l.foldl (minFoldStep g) acc = some (e, w) →
      acc = some (e, w) ∨
      (∃ l1 l2, l = l1 ++ e :: l2 ∧ getWeight g e.1 e.2 = some w ∧
        (∀ uv ∈ l1, ∀ w', getWeight g uv.1 uv.2 = some w' → w < w') ∧
        (∀ e0 w0, acc = some (e0, w0) → w < w0)) := by
  intro l
  induction l with
  | nil =>
    intro acc e w h
    simp only [List.foldl_nil] at h
    exact Or.inl h
  | cons uv l ih =>
    intro acc e w h
    simp only [List.foldl_cons] at h
    rcases ih _ e w h with hA | hB
    · cases hw' : getWeight g uv.1 uv.2 with
      | none =>
        simp only [minFoldStep, hw'] at hA
        exact Or.inl hA
      | some w'' =>
        cases acc with
        | none =>
          simp only [minFoldStep, hw', Option.some.injEq, Prod.mk.injEq] at hA
          obtain ⟨rfl, rfl⟩ := hA
          right
          exact ⟨[], l, rfl, hw', by simp, by simp⟩
        | some pw =>
          simp only [minFoldStep, hw'] at hA
          by_cases hlt : w'' < pw.2
          · rw [if_pos hlt] at hA
            simp only [Option.some.injEq, Prod.mk.injEq] at hA
            obtain ⟨rfl, rfl⟩ := hA
            right
            refine ⟨[], l, rfl, hw', by simp, ?_⟩
            intro e0 w0 h0
            simp only [Option.some.injEq] at h0
            subst h0
            exact hlt
          · rw [if_neg hlt] at hA
            exact Or.inl hA
    · obtain ⟨l1, l2, hsplit, hwe, hl1, hacc⟩ := hB
      right
      refine ⟨uv :: l1, l2, by rw [hsplit]; rfl, hwe, ?_, ?_⟩
      · intro x hx w' hw'
        rcases List.mem_cons.mp hx with rfl | hx'
        · -- the weight of the head element is strictly above the final minimum
          cases acc with
          | none =>
            simp only [minFoldStep, hw'] at hacc
            exact hacc x w' rfl
          | some pw =>
            simp only [minFoldStep, hw'] at hacc
            by_cases hlt : w' < pw.2
            · rw [if_pos hlt] at hacc
              exact hacc x w' rfl
            · rw [if_neg hlt] at hacc
              have := hacc pw.1 pw.2 (by simp)
              push_neg at hlt
              exact lt_of_lt_of_le this hlt
        · exact hl1 x hx' w' hw'
      · intro e0 w0 h0
        subst h0
        cases hw'' : getWeight g uv.1 uv.2 with
        | none =>
          simp only [minFoldStep, hw''] at hacc
          exact hacc e0 w0 rfl
        | some w'' =>
          simp only [minFoldStep, hw''] at hacc
          by_cases hlt : w'' < w0
          · rw [if_pos hlt] at hacc
            exact lt_trans (hacc uv w'' rfl) hlt
          · rw [if_neg hlt] at hacc
            exact hacc e0 w0 rfl

theorem minFold_le {g : Graph} :
    ∀ (l : List (NodeId × NodeId)) (acc : Option ((NodeId × NodeId) × Weight))
      (e : NodeId × NodeId) (w : Weight),
      l.foldl (minFoldStep g) acc = some (e, w) →
      ∀ uv ∈ l, ∀ w', getWeight g uv.1 uv.2 = some w' → w ≤ w' := by
  intro l
  induction l with
  | nil => intro acc e w _ uv huv; simp at huv
  | cons x l ih =>
    intro acc e w h uv huv w' hw'
    simp only [List.foldl_cons] at h
    rcases List.mem_cons.mp huv with rfl | huv'
    · -- the final minimum is at most the head's weight when it exists
      rcases minFold_spec l _ e w h with hA | ⟨l1, l2, _, _, _, hacc⟩
      · cases acc with
        | none =>
          simp only [minFoldStep, hw', Option.some.injEq, Prod.mk.injEq] at hA
          exact le_of_eq hA.2.symm
        | some pw =>
          simp only [minFoldStep, hw'] at hA
          by_cases hlt : w' < pw.2
          · rw [if_pos hlt] at hA
            simp only [Option.some.injEq, Prod.mk.injEq] at hA
            exact le_of_eq hA.2.symm
          · rw [if_neg hlt] at hA
            push_neg at hlt
            have hpw : pw = (e, w) := by simpa using hA
            subst hpw
            exact hlt
      · cases acc with
        | none =>
          simp only [minFoldStep, hw'] at hacc
          exact le_of_lt (hacc uv w' rfl)
        | some pw =>
          simp only [minFoldStep, hw'] at hacc
          by_cases hlt : w' < pw.2
          · rw [if_pos hlt] at hacc
            exact le_of_lt (hacc uv w' rfl)
          · rw [if_neg hlt] at hacc
            push_neg at hlt
            exact le_trans (le_of_lt (hacc pw.1 pw.2 (by simp))) hlt
    · exact ih _ e w h uv huv' w' hw'

theorem minCycleEdgeW_getWeight {g : Graph} {c : List NodeId}
    {e : NodeId × NodeId} {w : Weight} (h : minCycleEdgeW g c = some (e, w)) :
    getWeight g e.1 e.2 = some w := by
  rcases minFold_spec _ _ e w h with hA | ⟨l1, l2, _, hw, _, _⟩
  · simp at hA
  · exact hw

theorem minCycleEdgeW_isSome {g : Graph} {c : List NodeId} (h : findCycle g = some c) :
    (minCycleEdgeW g c).isSome = true := by
  obtain ⟨hne, hedges⟩ := findCycle_sound h
  unfold minCycleEdgeW
  cases c with
  | nil => exact absurd rfl hne
  | cons x rest =>
    have hnonempty : ∃ y ys, rest ++ [x] = y :: ys := by
      cases hr : rest ++ [x] with
      | nil => exact absurd hr (by simp)
      | cons y ys => exact ⟨y, ys, rfl⟩
    obtain ⟨y, ys, hy⟩ := hnonempty
    have hfirst : (x, y) ∈ cycleEdges (x :: rest) := by
      show (x, y) ∈ (x :: rest).zip (rest ++ [x])
      rw [hy, List.zip_cons_cons]
      simp
    have hedge := hedges (x, y) hfirst
    obtain ⟨w, hw⟩ := getWeight_some_of_hasEdge hedge
    exact minFold_isSome_of_mem _ none (x, y) hfirst (by rw [hw]; rfl)

/-!
## Termination and output of the cycle-repair loop

These lemmas hold over the rational (finite) weight model, where a
detected cycle always contains a removable minimum-weight edge.  They do
not extend to the full float weight domain: with `Infinity` weights the
min-edge scan can come up empty and the source loop re-enters unchanged —
see the float-weight replica and `claim_C7_no_defensive_stop` below.
-/

theorem removeEdge_length_lt {g : Graph} {uv : NodeId × NodeId}
    (h : hasEdge g uv.1 uv.2 = true) :
    (removeEdge g uv).adj.length < g.adj.length := by
  obtain ⟨w, hw⟩ := hasEdge_iff_exists.mp h
  unfold removeEdge
  apply List.length_filter_lt_length_iff_exists.mpr
  exact ⟨(uv.1, uv.2, w), hw, by simp⟩

theorem resolveCyclesFuel_acyclic :
    ∀ (fuel : Nat) (g : Graph), g.adj.length < fuel →
      isAcyclic (resolveCyclesFuel fuel g) = true := by
  intro fuel
  induction fuel with
  | zero => intro g h; omega
  | succ fuel ih =>
    intro g h
    rw [resolveCyclesFuel]
    by_cases hacy : isAcyclic g
    · rw [if_pos hacy]; exact hacy
    · rw [if_neg hacy]
      cases hfc : findCycle g with
      | none =>
        exfalso
        apply hacy
        unfold isAcyclic
        rw [hfc]
        rfl
      | some c =>
        cases hmin : minCycleEdgeW g c with
        | none =>
          exfalso
          have := minCycleEdgeW_isSome hfc
          rw [hmin] at this
          simp at this
        | some ew =>
          obtain ⟨e, w⟩ := ew
          simp only [hmin]
          apply ih
          have hgw := minCycleEdgeW_getWeight hmin
          have hlt : (removeEdge g e).adj.length < g.adj.length :=
            removeEdge_length_lt (by unfold hasEdge; rw [hgw]; rfl)
          omega

theorem resolveCyclesFuel_stable :
    ∀ (n m : Nat) (g : Graph), g.adj.length < n → g.adj.length < m →
      resolveCyclesFuel n g = resolveCyclesFuel m g := by
  intro n
  induction n with
  | zero => intro m g h; omega
  | succ n ih =>
    intro m g hn hm
    cases m with
    | zero => omega
    | succ m =>
      rw [resolveCyclesFuel, resolveCyclesFuel]
      by_cases hacy : isAcyclic g
      · rw [if_pos hacy, if_pos hacy]
      · rw [if_neg hacy, if_neg hacy]
        cases hfc : findCycle g with
        | none => rfl
        | some c =>
          cases hmin : minCycleEdgeW g c with
          | none =>
            exfalso
            have := minCycleEdgeW_isSome hfc
            rw [hmin] at this
            simp at this
          | some ew =>
            obtain ⟨e, w⟩ := ew
            have hgw := minCycleEdgeW_getWeight hmin
            have hlt : (removeEdge g e).adj.length < g.adj.length :=
              removeEdge_length_lt (by unfold hasEdge; rw [hgw]; rfl)
            simp only [hmin]
            exact ih m (removeEdge g e) (by omega) (by omega)

theorem resolveCycles_acyclic (g : Graph) : isAcyclic (resolveCycles g) = true :=
  resolveCyclesFuel_acyclic _ g (by omega)

theorem resolveCyclesFuel_eq_resolveCycles {g : Graph} {fuel : Nat}
    (h : g.adj.length + 1 ≤ fuel) : resolveCyclesFuel fuel g = resolveCycles g :=
  resolveCyclesFuel_stable fuel _ g (by omega) (by omega)

theorem resolveCycles_of_acyclic {g : Graph} (h : isAcyclic g = true) :
    resolveCycles g = g := by
  unfold resolveCycles
  rw [resolveCyclesFuel, if_pos h]

theorem resolveCyclesFuel_step {g : Graph} {c : List NodeId} {e : NodeId × NodeId}
    {w : Weight} {fuel : Nat}
    (hfc : findCycle g = some c) (hmin : minCycleEdgeW g c = some (e, w)) :
    resolveCyclesFuel (fuel + 1) g = resolveCyclesFuel fuel (removeEdge g e) := by
  have hacy : isAcyclic g = false := by
    unfold isAcyclic
    rw [hfc]
    rfl
  rw [resolveCyclesFuel]
  rw [if_neg (by rw [hacy]; simp)]
  simp only [hfc, hmin]

/-! ## Maximum selection -/

theorem foldl_pick_spec :
    ∀ (xs : List (List NodeId × Weight)) (x : List NodeId × Weight),
      (xs.foldl (fun best q => if q.2 > best.2 then q else best) x) ∈ x :: xs ∧
      x.2 ≤ (xs.foldl (fun best q => if q.2 > best.2 then q else best) x).2 ∧
      ∀ q ∈ xs, q.2 ≤ (xs.foldl (fun best q => if q.2 > best.2 then q else best) x).2 := by
  intro xs
  induction xs with
  | nil => intro x; exact ⟨by simp, le_refl _, by simp⟩
  | cons x' xs ih =>
    intro x
    simp only [List.foldl_cons]
    obtain ⟨hmem, hle, hall⟩ := ih (if x'.2 > x.2 then x' else x)
    have hxy : x.2 ≤ (if x'.2 > x.2 then x' else x).2 := by
      by_cases hgt : x'.2 > x.2
      · rw [if_pos hgt]; exact le_of_lt hgt
      · rw [if_neg hgt]
    have hx'y : x'.2 ≤ (if x'.2 > x.2 then x' else x).2 := by
      by_cases hgt : x'.2 > x.2
      · rw [if_pos hgt]
      · rw [if_neg hgt]; exact le_of_not_lt hgt
    refine ⟨?_, le_trans hxy hle, ?_⟩
    · rcases List.mem_cons.mp hmem with h1 | h2
      · rw [h1]
        by_cases hgt : x'.2 > x.2
        · rw [if_pos hgt]; simp
        · rw [if_neg hgt]; simp
      · exact List.mem_cons_of_mem _ (List.mem_cons_of_mem _ h2)
    · intro q hq
      rcases List.mem_cons.mp hq with rfl | hq'
      · exact le_trans hx'y hle
      · exact hall q hq'

theorem pickMax_spec {l : List (List NodeId × Weight)} {b : List NodeId × Weight}
    (h : pickMax l = some b) : b ∈ l ∧ ∀ q ∈ l, q.2 ≤ b.2 := by
  cases l with
  | nil => simp [pickMax] at h
  | cons x xs =>
    simp only [pickMax, Option.some.injEq] at h
    subst h
    obtain ⟨hmem, hle, hall⟩ := foldl_pick_spec xs x
    refine ⟨hmem, ?_⟩
    intro q hq
    rcases List.mem_cons.mp hq with rfl | hq'
    · exact hle
    · exact hall q hq'

theorem pickMax_eq_none {l : List (List NodeId × Weight)} (h : pickMax l = none) :
    l = [] := by
  cases l with
  | nil => rfl
  | cons x xs => simp [pickMax] at h

theorem foldl_max_spec :
    ∀ (xs : List Weight) (x : Weight),
      (xs.foldl max x) ∈ x :: xs ∧ x ≤ xs.foldl max x ∧ ∀ y ∈ xs, y ≤ xs.foldl max x := by
  intro xs
  induction xs with
  | nil => intro x; exact ⟨by simp, le_refl _, by simp⟩
  | cons x' xs ih =>
    intro x
    simp only [List.foldl_cons]
    obtain ⟨hmem, hle, hall⟩ := ih (max x x')
    refine ⟨?_, le_trans (le_max_left x x') hle, ?_⟩
    · rcases List.mem_cons.mp hmem with h1 | h2
      · rw [h1]
        rcases max_choice x x' with hc | hc
        · rw [hc]; simp
        · rw [hc]; simp
      · exact List.mem_cons_of_mem _ (List.mem_cons_of_mem _ h2)
    · intro y hy
      rcases List.mem_cons.mp hy with rfl | hy'
      · exact le_trans (le_max_right x y) hle
      · exact hall y hy'

theorem maxList_spec {l : List Weight} {m : Weight} (h : maxList l = some m) :
    m ∈ l ∧ ∀ y ∈ l, y ≤ m := by
  cases l with
  | nil => simp [maxList] at h
  | cons x xs =>
    simp only [maxList, Option.some.injEq] at h
    subst h
    obtain ⟨hmem, hle, hall⟩ := foldl_max_spec xs x
    refine ⟨hmem, ?_⟩
    intro y hy
    rcases List.mem_cons.mp hy with rfl | hy'
    · exact hle
    · exact hall y hy'

theorem maxList_isSome {l : List Weight} (h : l ≠ []) : ∃ m, maxList l = some m := by
  cases l with
  | nil => exact absurd rfl h
  | cons x xs => exact ⟨_, rfl⟩

/-! ## The cascade delay accumulation -/

theorem cascadeStep_le (g : Graph) (s : NodeId) (total : Weight) (t : NodeId) :
    total ≤ cascadeStep g s total t := by
  unfold cascadeStep
  cases maxList ((allSimplePaths g s t).map (pathWeight g)) with
  | none => exact le_refl _
  | some m => exact le_max_left _ _

theorem cascadeFold_init_le (g : Graph) (s : NodeId) :
    ∀ (l : List NodeId) (init : Weight), init ≤ l.foldl (cascadeStep g s) init := by
  intro l
  induction l with
  | nil => intro init; exact le_refl _
  | cons x l ih =>
    intro init
    simp only [List.foldl_cons]
    exact le_trans (cascadeStep_le g s init x) (ih _)

theorem cascadeFold_mem_le (g : Graph) (s : NodeId) :
    ∀ (l : List NodeId) (init : Weight) (t : NodeId), t ∈ l →
      ∀ m, maxList ((allSimplePaths g s t).map (pathWeight g)) = some m →
        m ≤ l.foldl (cascadeStep g s) init := by
  intro l
  induction l with
  | nil => intro init t ht; simp at ht
  | cons x l ih =>
    intro init t ht m hm
    simp only [List.foldl_cons]
    rcases List.mem_cons.mp ht with rfl | ht'
    · have hstep : m ≤ cascadeStep g s init t := by
        unfold cascadeStep
        rw [hm]
        exact le_max_right _ _
      exact le_trans hstep (cascadeFold_init_le g s l _)
    · exact ih _ t ht' m hm

theorem cascadeFold_attained (g : Graph) (s : NodeId) :
    ∀ (l : List NodeId) (init : Weight),
      l.foldl (cascadeStep g s) init = init ∨
      ∃ t ∈ l, ∃ m, maxList ((allSimplePaths g s t).map (pathWeight g)) = some m ∧
        l.foldl (cascadeStep g s) init = m := by
  intro l
  induction l with
  | nil => intro init; exact Or.inl rfl
  | cons x l ih =>
    intro init
    simp only [List.foldl_cons]
    rcases ih (cascadeStep g s init x) with h1 | h2
    · rw [h1]
      cases hm : maxList ((allSimplePaths g s x).map (pathWeight g)) with
      | none =>
        left
        unfold cascadeStep
        rw [hm]
      | some m =>
        have hstep : cascadeStep g s init x = max init m := by
          unfold cascadeStep
          rw [hm]
        rcases max_choice init m with hc | hc
        · left
          rw [hstep, hc]
        · right
          exact ⟨x, by simp, m, hm, by rw [hstep, hc]⟩
    · obtain ⟨t, ht, m, hm, heq⟩ := h2
      right
      exact ⟨t, List.mem_cons_of_mem _ ht, m, hm, heq⟩

/-! ## Characterisations used by the claims -/

theorem descendants_error {g : Graph} {s : NodeId} (h : s ∉ g.nodes) :
    descendants g s = .error "node not in graph" := by
  unfold descendants
  rw [if_neg h]

theorem descendants_ok {g : Graph} {s : NodeId} (h : s ∈ g.nodes) :
    descendants g s =
      .ok (g.nodes.filter (fun n => decide (n ≠ s) && !(allSimplePaths g s n).isEmpty)) := by
  unfold descendants
  rw [if_pos h]

theorem mem_descendants_iff {g : Graph} {s : NodeId} {affected : List NodeId}
    (h : descendants g s = .ok affected) :
    ∀ n, n ∈ affected ↔ n ∈ g.nodes ∧ n ≠ s ∧ allSimplePaths g s n ≠ [] := by
  by_cases hs : s ∈ g.nodes
  · rw [descendants_ok hs] at h
    simp only [Except.ok.injEq] at h
    subst h
    intro n
    rw [List.mem_filter]
    simp only [Bool.and_eq_true, decide_eq_true_eq, Bool.not_eq_true',
      List.isEmpty_eq_false, and_assoc]
  · rw [descendants_error hs] at h
    simp at h

theorem isSimplePath_endpoints {g : Graph} (hwf : g.WF) {s t : NodeId} {p : List NodeId}
    (hne : s ≠ t) (hp : isSimplePath g s t p) :
    s ∈ g.nodes ∧ t ∈ g.nodes ∧ 2 ≤ p.length := by
  obtain ⟨h1, h2, h3, h4⟩ := hp
  cases p with
  | nil => simp at h1
  | cons x xs =>
    cases xs with
    | nil =>
      simp only [List.head?_cons, Option.some.injEq] at h1
      simp only [List.getLast?_singleton, Option.some.injEq] at h2
      exact absurd (h1.symm.trans h2) hne
    | cons y ys =>
      have hsub := chainOk_nodes hwf _ h4 (by simp)
      have hs : s ∈ g.nodes := by
        have hx : x = s := by simpa using h1
        rw [← hx]
        exact hsub x (by simp)
      have ht : t ∈ g.nodes := hsub t (mem_of_getLast?_eq_some h2)
      exact ⟨hs, ht, by simp⟩

theorem mem_allGraphPaths {g : Graph} {s t : NodeId} {p : List NodeId}
    (hs : s ∈ g.nodes) (ht : t ∈ g.nodes) (hne : s ≠ t)
    (hp : p ∈ allSimplePaths g s t) :
    (p, pathWeight g p) ∈ allGraphPaths g := by
  unfold allGraphPaths
  apply List.mem_flatMap.mpr
  refine ⟨s, hs, ?_⟩
  apply List.mem_flatMap.mpr
  refine ⟨t, ht, ?_⟩
  rw [if_neg hne]
  exact List.mem_map.mpr ⟨p, hp, rfl⟩

theorem allGraphPaths_inv {g : Graph} {pw : List NodeId × Weight}
    (h : pw ∈ allGraphPaths g) :
    ∃ s t, s ∈ g.nodes ∧ t ∈ g.nodes ∧ s ≠ t ∧ pw.1 ∈ allSimplePaths g s t ∧
      pw.2 = pathWeight g pw.1 := by
  unfold allGraphPaths at h
  obtain ⟨s, hs, h1⟩ := List.mem_flatMap.mp h
  obtain ⟨t, ht, h2⟩ := List.mem_flatMap.mp h1
  by_cases hne : s = t
  · rw [if_pos hne] at h2
    simp at h2
  · rw [if_neg hne] at h2
    obtain ⟨p, hp, heq⟩ := List.mem_map.mp h2
    subst heq
    exact ⟨s, t, hs, ht, hne, hp, rfl⟩

/-! ## Handler-level bridging lemmas -/

theorem cascade_fields (pa up : Bool) (src : NodeId) (nodes : List NodeId)
    (edges : List InEdge) (affected : List NodeId)
    (h : descendants (buildGraph nodes edges) src = .ok affected) :
    (calculate_cascade_impact pa src nodes edges up).affected_items = affected ∧
    (calculate_cascade_impact pa src nodes edges up).total_delay =
      cascadeDelay (buildGraph nodes edges) src affected := by
  unfold calculate_cascade_impact
  simp only [h]
  cases hb : (up && pa) <;> simp [hb]

theorem cascade_error_fields (pa up : Bool) (src : NodeId) (nodes : List NodeId)
    (edges : List InEdge) (h : src ∉ (buildGraph nodes edges).nodes) :
    calculate_cascade_impact pa src nodes edges up =
      { affected_items := [], total_delay := 0, error := some "node not in graph" } := by
  unfold calculate_cascade_impact
  simp only [descendants_error h]

theorem cascade_eq_core (pa up : Bool) (src : NodeId) (nodes : List NodeId)
    (edges : List InEdge) :
    (calculate_cascade_impact pa src nodes edges up).affected_items
      = (cascadeCore (buildGraph nodes edges) src).1 ∧
    (calculate_cascade_impact pa src nodes edges up).total_delay
      = (cascadeCore (buildGraph nodes edges) src).2 := by
  unfold calculate_cascade_impact cascadeCore
  cases hd : descendants (buildGraph nodes edges) src with
  | error msg => simp [hd]
  | ok aff =>
    simp only [hd]
    cases hb : (up && pa) <;> simp [hb]

theorem find_critical_path_raw (pa : Bool) (nodes : List NodeId) (edges es : List InEdge)
    (up : Bool) (hes : (if up && pa then edges.map augmentEdge else edges) = es) :
    (find_critical_path pa nodes edges up).path =
      (criticalCore (resolveCycles (buildGraph nodes es))).1 ∧
    (find_critical_path pa nodes edges up).totalWeight =
      (criticalCore (resolveCycles (buildGraph nodes es))).2 := by
  unfold find_critical_path criticalCore
  rw [hes]
  cases hpk : pickMax (allGraphPaths (resolveCycles (buildGraph nodes es))) with
  | none => simp [hpk]
  | some pw => simp [hpk]

theorem criticalCore_dominates (g : Graph) (hwf : g.WF) :
    (∀ s t p, s ≠ t → isSimplePath g s t p → pathWeight g p ≤ (criticalCore g).2) ∧
    ((criticalCore g).1 ≠ [] →
      ∃ s t, s ≠ t ∧ isSimplePath g s t (criticalCore g).1 ∧
        pathWeight g (criticalCore g).1 = (criticalCore g).2) ∧
    ((∃ s t p, s ≠ t ∧ isSimplePath g s t p) → (criticalCore g).1 ≠ []) := by
  unfold criticalCore
  cases hpk : pickMax (allGraphPaths g) with
  | none =>
    have hempty := pickMax_eq_none hpk
    refine ⟨?_, ?_, ?_⟩
    · intro s t p hne hp
      exfalso
      obtain ⟨hs, ht, _⟩ := isSimplePath_endpoints hwf hne hp
      have hmem : (p, pathWeight g p) ∈ allGraphPaths g := by
        apply mem_allGraphPaths hs ht hne
        exact (mem_allSimplePaths_iff hwf s t p).mpr hp
      rw [hempty] at hmem
      simp at hmem
    · intro hne
      simp at hne
    · rintro ⟨s, t, p, hne, hp⟩
      exfalso
      obtain ⟨hs, ht, _⟩ := isSimplePath_endpoints hwf hne hp
      have hmem : (p, pathWeight g p) ∈ allGraphPaths g := by
        apply mem_allGraphPaths hs ht hne
        exact (mem_allSimplePaths_iff hwf s t p).mpr hp
      rw [hempty] at hmem
      simp at hmem
  | some pw =>
    obtain ⟨hmem, hdom⟩ := pickMax_spec hpk
    obtain ⟨s0, t0, hs0, ht0, hne0, hp0, hw0⟩ := allGraphPaths_inv hmem
    have hsp0 : isSimplePath g s0 t0 pw.1 := (mem_allSimplePaths_iff hwf s0 t0 pw.1).mp hp0
    refine ⟨?_, ?_, ?_⟩
    · intro s t p hne hp
      obtain ⟨hs, ht, _⟩ := isSimplePath_endpoints hwf hne hp
      have hm : (p, pathWeight g p) ∈ allGraphPaths g := by
        apply mem_allGraphPaths hs ht hne
        exact (mem_allSimplePaths_iff hwf s t p).mpr hp
      exact hdom _ hm
    · intro _
      exact ⟨s0, t0, hne0, hsp0, hw0.symm⟩
    · intro _
      obtain ⟨hh, _, _, _⟩ := hsp0
      intro hnil
      rw [hnil] at hh
      simp at hh

theorem cascade_enhanced_fields (src : NodeId) (nodes : List NodeId)
    (edges : List InEdge) (affected : List NodeId)
    (h : descendants (buildGraph nodes edges) src = .ok affected) :
    (calculate_cascade_impact true src nodes edges true).physics_enhanced_delay
      = some (cascadeDelay (buildGraph nodes edges) src affected * 1 * 1 *
          (1 + (1 / 10) * (affected.length : Weight))) ∧
    (calculate_cascade_impact true src nodes edges false).physics_enhanced_delay = none := by
  unfold calculate_cascade_impact
  simp only [h]
  exact ⟨rfl, rfl⟩

/-! ## The claims -/

/-- Claim C1: for every acyclic graph built from the request's nodes and
edges, `find_critical_path` returns the simple path of maximum total edge
weight over all ordered pairs of distinct nodes — its reported weight
dominates every simple path between every ordered pair of distinct nodes,
the reported path is itself such a path attaining that weight, and a
nonempty path is reported whenever any such path exists; in particular,
for nodes {A,B,C,D} with edges A→B(1), B→D(1), A→C(5), C→D(5) it returns
the path [A,C,D] with total weight 10. -/
theorem claim_C1_global_max (nodes : List NodeId) (edges : List InEdge)
    (hacy : isAcyclic (buildGraph nodes edges) = true) :
    ((∀ s t p, s ≠ t → isSimplePath (buildGraph nodes edges) s t p →
        pathWeight (buildGraph nodes edges) p
          ≤ (find_critical_path false nodes edges false).totalWeight) ∧
     ((find_critical_path false nodes edges false).path ≠ [] →
        ∃ s t, s ≠ t ∧
          isSimplePath (buildGraph nodes edges) s t
            (find_critical_path false nodes edges false).path ∧
          pathWeight (buildGraph nodes edges) (find_critical_path false nodes edges false).path
            = (find_critical_path false nodes edges false).totalWeight) ∧
     ((∃ s t p, s ≠ t ∧ isSimplePath (buildGraph nodes edges) s t p) →
        (find_critical_path false nodes edges false).path ≠ [])) ∧
    find_critical_path false [0, 1, 2, 3]
        [⟨0, 1, 1, none⟩, ⟨1, 3, 1, none⟩, ⟨0, 2, 5, none⟩, ⟨2, 3, 5, none⟩] false
      = { path := [0, 2, 3], totalWeight := 10 } := by
  constructor
  · have hwf := buildGraph_wf nodes edges
    have hres : resolveCycles (buildGraph nodes edges) = buildGraph nodes edges :=
      resolveCycles_of_acyclic hacy
    have hraw := find_critical_path_raw false nodes edges edges false rfl
    rw [hres] at hraw
    obtain ⟨hdom, hatt, hnem⟩ := criticalCore_dominates (buildGraph nodes edges) hwf
    refine ⟨?_, ?_, ?_⟩
    · intro s t p hns hp
      rw [hraw.2]
      exact hdom s t p hns hp
    · intro hpne
      rw [hraw.1] at hpne ⊢
      rw [hraw.2]
      exact hatt hpne
    · intro hex
      rw [hraw.1]
      exact hnem hex
  · with_unfolding_all rfl

theorem claim_C1_witness :
    isAcyclic (buildGraph [0, 1, 2, 3]
        [⟨0, 1, 1, none⟩, ⟨1, 3, 1, none⟩, ⟨0, 2, 5, none⟩, ⟨2, 3, 5, none⟩]) = true ∧
    find_critical_path false [0, 1, 2, 3]
        [⟨0, 1, 1, none⟩, ⟨1, 3, 1, none⟩, ⟨0, 2, 5, none⟩, ⟨2, 3, 5, none⟩] false
      = { path := [0, 2, 3], totalWeight := 10 } :=
  ⟨by with_unfolding_all rfl,
   (claim_C1_global_max [0, 1, 2, 3]
      [⟨0, 1, 1, none⟩, ⟨1, 3, 1, none⟩, ⟨0, 2, 5, none⟩, ⟨2, 3, 5, none⟩]
      (by with_unfolding_all rfl)).2⟩

/-- Claim C2 (amended): for every graph and source node present in it,
`calculate_cascade_impact` returns (a) exactly the nodes other than the
source that are reachable from it by a simple path, and (b) a
`total_delay` equal to the maximum of `0` and the maximum, over all
reachable descendants, of the maximum-weight simple path from the source
to that descendant (the accumulator starts at `0`, so an all-negative
path weight is clamped to `0`); in particular, for nodes {A,B,C} with
edges A→B(2), B→C(3) the descendants of A are {B,C} and `total_delay` is
5. -/
theorem claim_C2_cascade_amended (pa up : Bool) (src : NodeId)
    (nodes : List NodeId) (edges : List InEdge)
    (hsrc : src ∈ (buildGraph nodes edges).nodes) :
    ((∀ n, n ∈ (calculate_cascade_impact pa src nodes edges up).affected_items ↔
        (n ≠ src ∧ ∃ p, isSimplePath (buildGraph nodes edges) src n p)) ∧
     0 ≤ (calculate_cascade_impact pa src nodes edges up).total_delay ∧
     (∀ n ∈ (calculate_cascade_impact pa src nodes edges up).affected_items,
        ∀ p, isSimplePath (buildGraph nodes edges) src n p →
          pathWeight (buildGraph nodes edges) p
            ≤ (calculate_cascade_impact pa src nodes edges up).total_delay) ∧
     ((calculate_cascade_impact pa src nodes edges up).total_delay = 0 ∨
       ∃ n ∈ (calculate_cascade_impact pa src nodes edges up).affected_items,
         ∃ p, isSimplePath (buildGraph nodes edges) src n p ∧
           pathWeight (buildGraph nodes edges) p
             = (calculate_cascade_impact pa src nodes edges up).total_delay)) ∧
    calculate_cascade_impact false 0 [0, 1, 2] [⟨0, 1, 2, none⟩, ⟨1, 2, 3, none⟩] false
      = { affected_items := [1, 2], total_delay := 5 } := by
  constructor
  · have hwf := buildGraph_wf nodes edges
    cases hdd : descendants (buildGraph nodes edges) src with
    | error msg =>
      exfalso
      rw [descendants_ok hsrc] at hdd
      simp at hdd
    | ok aff =>
      obtain ⟨haff, htot⟩ := cascade_fields pa up src nodes edges aff hdd
      refine ⟨?_, ?_, ?_, ?_⟩
      · intro n
        rw [haff, mem_descendants_iff hdd n]
        constructor
        · rintro ⟨hn, hne, hpne⟩
          refine ⟨hne, ?_⟩
          obtain ⟨p, hp⟩ := List.exists_mem_of_ne_nil _ hpne
          exact ⟨p, (mem_allSimplePaths_iff hwf src n p).mp hp⟩
        · rintro ⟨hne, p, hp⟩
          have hmem : p ∈ allSimplePaths (buildGraph nodes edges) src n :=
            (mem_allSimplePaths_iff hwf src n p).mpr hp
          refine ⟨?_, hne, ?_⟩
          · obtain ⟨_, ht, _⟩ := isSimplePath_endpoints hwf (fun h => hne h.symm) hp
            exact ht
          · intro hnil
            rw [hnil] at hmem
            simp at hmem
      · rw [htot]
        exact cascadeFold_init_le _ _ _ 0
      · intro n hn p hp
        rw [haff] at hn
        rw [htot]
        have hmem : p ∈ allSimplePaths (buildGraph nodes edges) src n :=
          (mem_allSimplePaths_iff hwf src n p).mpr hp
        have hwmem : pathWeight (buildGraph nodes edges) p ∈
            (allSimplePaths (buildGraph nodes edges) src n).map
              (pathWeight (buildGraph nodes edges)) :=
          List.mem_map.mpr ⟨p, hmem, rfl⟩
        have hnn : (allSimplePaths (buildGraph nodes edges) src n).map
            (pathWeight (buildGraph nodes edges)) ≠ [] := by
          intro hq
          rw [hq] at hwmem
          simp at hwmem
        obtain ⟨m, hm⟩ := maxList_isSome hnn
        have hle1 := (maxList_spec hm).2 _ hwmem
        have hle2 := cascadeFold_mem_le _ _ aff 0 n hn m hm
        exact le_trans hle1 hle2
      · rw [htot, haff]
        unfold cascadeDelay
        rcases cascadeFold_attained (buildGraph nodes edges) src aff 0 with h0 | hatt
        · exact Or.inl h0
        · right
          obtain ⟨t, ht, m, hm, heq⟩ := hatt
          refine ⟨t, ht, ?_⟩
          obtain ⟨hmm, _⟩ := maxList_spec hm
          obtain ⟨p, hpmem, hpw⟩ := List.mem_map.mp hmm
          refine ⟨p, (mem_allSimplePaths_iff hwf src t p).mp hpmem, ?_⟩
          rw [hpw]
          exact heq.symm
  · with_unfolding_all rfl

theorem claim_C2_witness :
    (0 : NodeId) ∈ (buildGraph [0, 1, 2] [⟨0, 1, 2, none⟩, ⟨1, 2, 3, none⟩]).nodes ∧
    calculate_cascade_impact false 0 [0, 1, 2] [⟨0, 1, 2, none⟩, ⟨1, 2, 3, none⟩] false
      = { affected_items := [1, 2], total_delay := 5 } :=
  ⟨by decide,
   (claim_C2_cascade_amended false false 0 [0, 1, 2]
      [⟨0, 1, 2, none⟩, ⟨1, 2, 3, none⟩] (by decide)).2⟩

/-- Claim C2 counterexample: for the single edge A→B with weight `-1` the
only simple path from A to its sole descendant B has weight `-1`, so the
claimed value of `total_delay` is `-1`; the code returns `0` (its
accumulator starts at `0` and only ever increases). -/
theorem claim_C2_counterexample :
    (calculate_cascade_impact false 0 [0, 1] [⟨0, 1, -1, none⟩] false).affected_items = [1] ∧
    allSimplePaths (buildGraph [0, 1] [⟨0, 1, -1, none⟩]) 0 1 = [[0, 1]] ∧
    pathWeight (buildGraph [0, 1] [⟨0, 1, -1, none⟩]) [0, 1] = -1 ∧
    (calculate_cascade_impact false 0 [0, 1] [⟨0, 1, -1, none⟩] false).total_delay = 0 ∧
    (0 : Weight) ≠ -1 := by
  refine ⟨by with_unfolding_all rfl, by with_unfolding_all rfl, by with_unfolding_all rfl,
    by with_unfolding_all rfl, by norm_num⟩

/-- Claim C3: whenever cycle detection reports a cycle, one loop iteration
of the resolver processes exactly that cycle: the selected edge lies in
the cycle's walked edge list, its weight is minimal among the cycle's
existing edges, ties are broken by first occurrence (every earlier
existing edge in the cycle's edge ordering is strictly heavier), and the
iteration continues on the graph with exactly that edge removed; in
particular, for the 2-node cycle A→B (weight 3), B→A (weight 1), the
weight-1 edge is removed and the result is acyclic with exactly the edge
A→B(3) remaining. -/
theorem claim_C3_cycle_repair (g : Graph) (c : List NodeId)
    (e : NodeId × NodeId) (w : Weight)
    (hfc : findCycle g = some c) (hmin : minCycleEdgeW g c = some (e, w)) :
    ((∃ l1 l2, cycleEdges c = l1 ++ e :: l2 ∧ getWeight g e.1 e.2 = some w ∧
        ∀ uv ∈ l1, ∀ w', getWeight g uv.1 uv.2 = some w' → w < w') ∧
     (∀ uv ∈ cycleEdges c, ∀ w', getWeight g uv.1 uv.2 = some w' → w ≤ w') ∧
     (∀ fuel, resolveCyclesFuel (fuel + 1) g = resolveCyclesFuel fuel (removeEdge g e))) ∧
    (resolveCycles (buildGraph [0, 1] [⟨0, 1, 3, none⟩, ⟨1, 0, 1, none⟩])
        = { nodes := [0, 1], adj := [(0, 1, 3)] } ∧
     isAcyclic (resolveCycles (buildGraph [0, 1] [⟨0, 1, 3, none⟩, ⟨1, 0, 1, none⟩])) = true ∧
     (resolveCycles (buildGraph [0, 1] [⟨0, 1, 3, none⟩, ⟨1, 0, 1, none⟩])).adj.length = 1) := by
  refine ⟨⟨?_, ?_, ?_⟩, by with_unfolding_all rfl, by with_unfolding_all rfl,
    by with_unfolding_all rfl⟩
  · rcases minFold_spec (cycleEdges c) none e w hmin with hA | hB
    · simp at hA
    · obtain ⟨l1, l2, hsp, hw, hl1, _⟩ := hB
      exact ⟨l1, l2, hsp, hw, hl1⟩
  · intro uv huv w' hw'
    exact minFold_le (cycleEdges c) none e w hmin uv huv w' hw'
  · intro fuel
    exact resolveCyclesFuel_step hfc hmin

theorem claim_C3_witness :
    findCycle (buildGraph [0, 1] [⟨0, 1, 3, none⟩, ⟨1, 0, 1, none⟩]) = some [0, 1] ∧
    minCycleEdgeW (buildGraph [0, 1] [⟨0, 1, 3, none⟩, ⟨1, 0, 1, none⟩]) [0, 1]
      = some ((1, 0), 1) ∧
    resolveCycles (buildGraph [0, 1] [⟨0, 1, 3, none⟩, ⟨1, 0, 1, none⟩])
      = { nodes := [0, 1], adj := [(0, 1, 3)] } :=
  ⟨by with_unfolding_all rfl, by with_unfolding_all rfl,
   (claim_C3_cycle_repair (buildGraph [0, 1] [⟨0, 1, 3, none⟩, ⟨1, 0, 1, none⟩]) [0, 1]
      (1, 0) 1 (by with_unfolding_all rfl) (by with_unfolding_all rfl)).2.1⟩

/-- Claim C4: a cascade-impact request whose source id is absent from the
graph's node set produces a structured error result — an error message
together with an empty affected-items list and a total delay of `0` — the
modelled form of catching the library's missing-node exception. -/
theorem claim_C4_missing_source (pa up : Bool) (src : NodeId)
    (nodes : List NodeId) (edges : List InEdge)
    (h : src ∉ (buildGraph nodes edges).nodes) :
    calculate_cascade_impact pa src nodes edges up =
      { affected_items := [], total_delay := 0, error := some "node not in graph" } ∧
    (calculate_cascade_impact pa src nodes edges up).error.isSome = true := by
  have heq := cascade_error_fields pa up src nodes edges h
  exact ⟨heq, by rw [heq]; rfl⟩

theorem claim_C4_witness :
    (5 : NodeId) ∉ (buildGraph [0, 1] [⟨0, 1, 2, none⟩]).nodes ∧
    calculate_cascade_impact false 5 [0, 1] [⟨0, 1, 2, none⟩] false =
      { affected_items := [], total_delay := 0, error := some "node not in graph" } :=
  ⟨by decide,
   (claim_C4_missing_source false false 5 [0, 1] [⟨0, 1, 2, none⟩] (by decide)).1⟩

/-- Claim C5 (amended): cycle resolution runs inside `find_critical_path`
only — the critical-path query is computed over `resolveCycles` of the
built graph, while `calculate_cascade_impact` computes its reachability
and delay over the raw graph exactly as built, with no cycle repair. -/
theorem claim_C5_cascade_raw_graph (pa up : Bool) (src : NodeId)
    (nodes : List NodeId) (edges : List InEdge) :
    ((calculate_cascade_impact pa src nodes edges up).affected_items
        = (cascadeCore (buildGraph nodes edges) src).1 ∧
     (calculate_cascade_impact pa src nodes edges up).total_delay
        = (cascadeCore (buildGraph nodes edges) src).2) ∧
    ∀ (ns : List NodeId) (es : List InEdge),
      (find_critical_path false ns es false).path
        = (criticalCore (resolveCycles (buildGraph ns es))).1 ∧
      (find_critical_path false ns es false).totalWeight
        = (criticalCore (resolveCycles (buildGraph ns es))).2 := by
  refine ⟨cascade_eq_core pa up src nodes edges, ?_⟩
  intro ns es
  exact find_critical_path_raw false ns es es false rfl

/-- Claim C5 counterexample: on the cyclic input A→B(1), B→A(5), B→C(1)
the cascade query from A returns descendants {B,C} with delay 2 (computed
on the raw cyclic graph), whereas on the cycle-resolved graph (which
drops the weight-1 edge A→B) the same query returns no descendants and
delay 0 — so the cascade query is not computed over the repaired graph. -/
theorem claim_C5_counterexample :
    (calculate_cascade_impact false 0 [0, 1, 2]
        [⟨0, 1, 1, none⟩, ⟨1, 0, 5, none⟩, ⟨1, 2, 1, none⟩] false).affected_items = [1, 2] ∧
    (calculate_cascade_impact false 0 [0, 1, 2]
        [⟨0, 1, 1, none⟩, ⟨1, 0, 5, none⟩, ⟨1, 2, 1, none⟩] false).total_delay = 2 ∧
    cascadeCore (resolveCycles (buildGraph [0, 1, 2]
        [⟨0, 1, 1, none⟩, ⟨1, 0, 5, none⟩, ⟨1, 2, 1, none⟩])) 0 = ([], 0) ∧
    ([1, 2] : List NodeId) ≠ [] := by
  refine ⟨by with_unfolding_all rfl, by with_unfolding_all rfl,
    by with_unfolding_all rfl, by decide⟩

/-- Claim C6 (amended): the weight-augmentation pre-pass replaces each
edge's weight by `weight * (riskScore / 50)` when a risk score is present
and leaves it unchanged otherwise, and in the critical-path query (when
requested and the provider is available) it is applied to every edge
before cycle resolution runs; the cascade-impact query, however, builds
its graph from the unadjusted edge weights for every flag combination. -/
theorem claim_C6_augmentation :
    (∀ e : InEdge,
        (augmentEdge e).weight =
          (match e.riskScore with
            | some r => e.weight * (r / 50)
            | none => e.weight) ∧
        (augmentEdge e).source = e.source ∧ (augmentEdge e).target = e.target ∧
        (augmentEdge e).riskScore = none) ∧
    (∀ (nodes : List NodeId) (edges : List InEdge),
       (find_critical_path true nodes edges true).path
         = (criticalCore (resolveCycles (buildGraph nodes (edges.map augmentEdge)))).1 ∧
       (find_critical_path true nodes edges true).totalWeight
         = (criticalCore (resolveCycles (buildGraph nodes (edges.map augmentEdge)))).2) ∧
    (∀ (pa up : Bool) (src : NodeId) (nodes : List NodeId) (edges : List InEdge),
       (calculate_cascade_impact pa src nodes edges up).total_delay
         = (cascadeCore (buildGraph nodes edges) src).2) := by
  refine ⟨?_, ?_, ?_⟩
  · intro e
    exact ⟨rfl, rfl, rfl, rfl⟩
  · intro nodes edges
    exact find_critical_path_raw true nodes edges (edges.map augmentEdge) true rfl
  · intro pa up src nodes edges
    exact (cascade_eq_core pa up src nodes edges).2

/-- Claim C6 counterexample: a cascade request with `usePINN` set, the
provider available, and an edge A→B of weight 2 carrying riskScore 100
yields `total_delay = 2`, computed from the raw weight; had the
augmentation `weight * (riskScore / 50)` been applied to the edges, the
delay would have been 4. -/
theorem claim_C6_counterexample :
    (calculate_cascade_impact true 0 [0, 1] [⟨0, 1, 2, some 100⟩] true).total_delay = 2 ∧
    (cascadeCore (buildGraph [0, 1]
        (([⟨0, 1, 2, some 100⟩] : List InEdge).map augmentEdge)) 0).2 = 4 ∧
    (2 : Weight) ≠ 4 := by
  refine ⟨by with_unfolding_all rfl, by with_unfolding_all rfl, by norm_num⟩

/-- Claim C7 (failing input): on the 2-node cycle A→B, B→A whose edges
both carry weight `Infinity` — a value the JSON decoder accepts — the
graph is cyclic, cycle detection reports the cycle [A,B], the min-edge
scan finds no removable edge within it (`inf < inf` is false, so
`min_edge` is never set), and every iteration of the repair loop hands
the `while not is_DAG` guard the graph unchanged: the loop never exits
and, having no stop for this case (its only break is `if not cycles:`),
iterates forever — contrary to the claimed defensive termination.  Over
finite weights the loop does terminate (`resolveCycles_acyclic`,
`resolveCyclesFuel_eq_resolveCycles` above); the divergence needs the
infinite weight, which is why it is stated over the float-weight replica. -/
theorem claim_C7_no_defensive_stop :
    fIsAcyclic (fBuildGraph [0, 1] [(0, 1, .inf), (1, 0, .inf)]) = false ∧
    fFindCycle (fBuildGraph [0, 1] [(0, 1, .inf), (1, 0, .inf)]) = some [0, 1] ∧
    fMinCycleEdge (fBuildGraph [0, 1] [(0, 1, .inf), (1, 0, .inf)]) [0, 1] = none ∧
    ∀ fuel, fResolveCyclesFuel fuel (fBuildGraph [0, 1] [(0, 1, .inf), (1, 0, .inf)])
      = fBuildGraph [0, 1] [(0, 1, .inf), (1, 0, .inf)] := by
  refine ⟨by decide, by decide, by decide, ?_⟩
  intro fuel
  induction fuel with
  | zero => rfl
  | succ fuel ih =>
    rw [fResolveCyclesFuel]
    rw [if_neg (by decide)]
    simp only [show fFindCycle (fBuildGraph [0, 1] [(0, 1, .inf), (1, 0, .inf)])
      = some [0, 1] from by decide]
    simp only [show fMinCycleEdge (fBuildGraph [0, 1] [(0, 1, .inf), (1, 0, .inf)]) [0, 1]
      = none from by decide]
    exact ih

/-- Claim C8: an input graph that is already acyclic is left completely
unchanged by cycle resolution — the resolved graph equals the input, node
list, edge list and weights included. -/
theorem claim_C8_acyclic_invariance (g : Graph) (h : isAcyclic g = true) :
    resolveCycles g = g :=
  resolveCycles_of_acyclic h

theorem claim_C8_witness :
    isAcyclic (buildGraph [0, 1, 2] [⟨0, 1, 1, none⟩, ⟨1, 2, 1, none⟩]) = true ∧
    resolveCycles (buildGraph [0, 1, 2] [⟨0, 1, 1, none⟩, ⟨1, 2, 1, none⟩])
      = buildGraph [0, 1, 2] [⟨0, 1, 1, none⟩, ⟨1, 2, 1, none⟩] :=
  ⟨by with_unfolding_all rfl,
   claim_C8_acyclic_invariance (buildGraph [0, 1, 2] [⟨0, 1, 1, none⟩, ⟨1, 2, 1, none⟩])
     (by with_unfolding_all rfl)⟩

/-- Claim C9: when the depth-based enhancement is active (`usePINN`
requested and the provider available) and the source is present,
`calculate_cascade_impact` exposes both the raw `total_delay` — identical
to the delay of a run without the enhancement — and a
`physics_enhanced_delay` equal to `total_delay * (1 + 0.1 * |affected|)`,
never substituting the enhanced value for the raw one. -/
theorem claim_C9_enhanced_delay (src : NodeId) (nodes : List NodeId)
    (edges : List InEdge) (hsrc : src ∈ (buildGraph nodes edges).nodes) :
    (calculate_cascade_impact true src nodes edges true).total_delay
      = (calculate_cascade_impact true src nodes edges false).total_delay ∧
    (calculate_cascade_impact true src nodes edges true).affected_items
      = (calculate_cascade_impact true src nodes edges false).affected_items ∧
    (calculate_cascade_impact true src nodes edges true).physics_enhanced_delay
      = some ((calculate_cascade_impact true src nodes edges true).total_delay *
          (1 + (1 / 10) *
            ((calculate_cascade_impact true src nodes edges true).affected_items.length
              : Weight))) ∧
    (calculate_cascade_impact true src nodes edges false).physics_enhanced_delay = none := by
  have hd := descendants_ok hsrc
  obtain ⟨haff1, htot1⟩ := cascade_fields true true src nodes edges _ hd
  obtain ⟨haff2, htot2⟩ := cascade_fields true false src nodes edges _ hd
  obtain ⟨henh1, henh2⟩ := cascade_enhanced_fields src nodes edges _ hd
  refine ⟨by rw [htot1, htot2], by rw [haff1, haff2], ?_, henh2⟩
  rw [henh1, htot1, haff1]
  congr 1
  ring

theorem claim_C9_witness :
    (0 : NodeId) ∈ (buildGraph [0, 1, 2] [⟨0, 1, 2, none⟩, ⟨1, 2, 3, none⟩]).nodes ∧
    (calculate_cascade_impact true 0 [0, 1, 2]
        [⟨0, 1, 2, none⟩, ⟨1, 2, 3, none⟩] true).physics_enhanced_delay
      = some ((calculate_cascade_impact true 0 [0, 1, 2]
            [⟨0, 1, 2, none⟩, ⟨1, 2, 3, none⟩] true).total_delay *
          (1 + (1 / 10) *
            ((calculate_cascade_impact true 0 [0, 1, 2]
                [⟨0, 1, 2, none⟩, ⟨1, 2, 3, none⟩] true).affected_items.length : Weight))) :=
  ⟨by decide,
   (claim_C9_enhanced_delay 0 [0, 1, 2] [⟨0, 1, 2, none⟩, ⟨1, 2, 3, none⟩]
      (by decide)).2.2.1⟩

/-- Claim C10: the affected-items list returned by
`calculate_cascade_impact` never contains the source node itself — for any
input whatsoever — and in particular not when the source lies on a cycle
and is therefore reachable from itself, as in the 2-node cycle A→B(1),
B→A(1) where the affected items of A are exactly [B]. -/
theorem claim_C10_source_excluded (pa up : Bool) (src : NodeId)
    (nodes : List NodeId) (edges : List InEdge) :
    src ∉ (calculate_cascade_impact pa src nodes edges up).affected_items ∧
    (calculate_cascade_impact false 0 [0, 1]
        [⟨0, 1, 1, none⟩, ⟨1, 0, 1, none⟩] false).affected_items = [1] := by
  constructor
  · cases hdd : descendants (buildGraph nodes edges) src with
    | error msg =>
      have hsrc : src ∉ (buildGraph nodes edges).nodes := by
        intro hmem
        rw [descendants_ok hmem] at hdd
        simp at hdd
      rw [cascade_error_fields pa up src nodes edges hsrc]
      simp
    | ok aff =>
      rw [(cascade_fields pa up src nodes edges aff hdd).1]
      intro hmem
      exact ((mem_descendants_iff hdd src).mp hmem).2.1 rfl
  · with_unfolding_all rfl

end DepEngine
